import Mathlib

/-!
Verification of the scoring core of the resume/job-description matcher
(`resume_parser.py`).  Strings are modelled as `List Char` (ASCII fragment of
Python's semantics: `\w`, `\s`, `str.lower` restricted to ASCII), Python
floats as exact rationals with round-half-to-even for `round(x, 2)`, and the
regex patterns actually used by the code — `\b<literal>\b` word-bounded
literal search and the technical-token pattern `\b[A-Za-z][\w\+\#\.\-]{2,}\b`
— as explicit executable matchers.
-/

attribute [local semireducible] Rat.add Rat.mul Rat.inv Rat.sub

/-- ASCII model of Python's regex word character `\w`: alphanumeric or `_`. -/
def isWordChar (c : Char) : Bool := c.isAlphanum || c = '_'

/-- ASCII model of Python's regex whitespace `\s`: space, tab, newline,
carriage return, vertical tab, form feed. -/
def isSpaceChar (c : Char) : Bool :=
  c = ' ' || c = '\t' || c = '\n' || c = '\r' || c = '\x0b' || c = '\x0c'

/-- The upper-case-to-lower-case letter table of the ASCII fragment of
Python's `str.lower`. -/
def lowerTable : List (Char × Char) :=
  [('A', 'a'), ('B', 'b'), ('C', 'c'), ('D', 'd'), ('E', 'e'), ('F', 'f'),
   ('G', 'g'), ('H', 'h'), ('I', 'i'), ('J', 'j'), ('K', 'k'), ('L', 'l'),
   ('M', 'm'), ('N', 'n'), ('O', 'o'), ('P', 'p'), ('Q', 'q'), ('R', 'r'),
   ('S', 's'), ('T', 't'), ('U', 'u'), ('V', 'v'), ('W', 'w'), ('X', 'x'),
   ('Y', 'y'), ('Z', 'z')]

/-- ASCII model of Python's `str.lower` on a single character: maps each
upper-case letter to its lower-case form and fixes every other character. -/
def lowerChar (c : Char) : Char :=
  match lowerTable.find? (fun p => p.1 == c) with
  | some p => p.2
  | none => c

/-- Python's `str.lower` lifted to strings. -/
def lowerStr (s : List Char) : List Char := s.map lowerChar

/-- First substitution of `preprocess_text`: `re.sub(r'[\n\t\r]', ' ', text)`
on a single character. -/
def sub1Char (c : Char) : Char :=
  if c = '\n' || c = '\t' || c = '\r' then ' ' else c

/-- First substitution of `preprocess_text` on a whole string. -/
def sub1 (s : List Char) : List Char := s.map sub1Char

/-- Worker for `re.sub(r'\s+', ' ', text)`: the flag records whether the
previous character was whitespace (so the current run is already emitted). -/
def collapseWsAux : Bool → List Char → List Char
  | _, [] => []
  | prevSpace, c :: cs =>
    if isSpaceChar c then
      if prevSpace then collapseWsAux true cs
      else ' ' :: collapseWsAux true cs
    else c :: collapseWsAux false cs

/-- Second substitution of `preprocess_text`: `re.sub(r'\s+', ' ', text)`,
replacing every maximal whitespace run by a single space. -/
def collapseWs (s : List Char) : List Char := collapseWsAux false s

/-- Third substitution of `preprocess_text`:
`re.sub(r'[^\w\s\.\-]', ' ', text)` on a single character. -/
def sub3Char (c : Char) : Char :=
  if isWordChar c || isSpaceChar c || c = '.' || c = '-' then c else ' '

/-- Third substitution of `preprocess_text` on a whole string. -/
def sub3 (s : List Char) : List Char := s.map sub3Char

/-- Python's `str.strip()`: remove leading and trailing whitespace. -/
def stripChars (s : List Char) : List Char :=
  (((s.dropWhile isSpaceChar).reverse).dropWhile isSpaceChar).reverse

/-- `preprocess_text` from `resume_parser.py`: empty input is returned as is;
otherwise newlines/tabs/carriage returns become spaces, whitespace runs are
collapsed to one space, characters outside `[\w\s.\-]` are replaced by a
space, and the result is stripped.  (Note the order: the collapse happens
before the punctuation substitution, exactly as in the source.) -/
def preprocess_text (text : List Char) : List Char :=
  if text = [] then []
  else stripChars (sub3 (collapseWs (sub1 text)))

example : preprocess_text "a!!b".toList = "a  b".toList := by decide
example : preprocess_text (preprocess_text "a!!b".toList) = "a b".toList := by decide
example : preprocess_text "  Hello,\n world! ".toList = "Hello  world".toList := by decide

/-- Word-ness of an optional character: characters outside the string count
as non-word, exactly as Python's `\b` treats the ends of the haystack. -/
def wordB : Option Char → Bool
  | none => false
  | some c => isWordChar c

/-- One candidate position of `re.search(r'\b' + re.escape(P) + r'\b', hay)`:
the literal `needle` occurs at index `i` of `hay`, with a `\b` word boundary
on each side (word-ness differs across the boundary, out-of-string counting
as non-word). -/
def matchAt (needle hay : List Char) (i : Nat) : Bool :=
  decide ((hay.drop i).take needle.length = needle)
  && (wordB (if i = 0 then none else hay[i - 1]?) != wordB needle.head?)
  && (wordB hay[i + needle.length]? != wordB needle.getLast?)

/-- `re.search(r'\b' + re.escape(P) + r'\b', hay) is not None`: some position
of the haystack carries a word-bounded occurrence of the literal pattern. -/
def searchWB (needle hay : List Char) : Bool :=
  (List.range (hay.length + 1)).any (fun i => matchAt needle hay i)

example : searchWB "python".toList "i use python daily".toList = true := by decide
example : searchWB "javascript".toList "javascriptx".toList = false := by decide
example : searchWB "c++".toList "i know c++".toList = false := by decide
example : searchWB "c++".toList "c++11".toList = true := by decide

/-- `COMMON_SKILLS` from `resume_parser.py`: the static category → skill-list
dictionary. -/
def COMMON_SKILLS : List (List Char × List (List Char)) :=
  [ ("programming".toList,
      ["python", "java", "javascript", "c++", "ruby", "php", "swift",
       "typescript", "kotlin", "golang", "rust"].map String.toList),
    ("web_dev".toList,
      ["html", "css", "react", "angular", "vue", "node.js", "django",
       "flask", "express", "bootstrap", "jquery"].map String.toList),
    ("databases".toList,
      ["sql", "mongodb", "postgresql", "mysql", "oracle", "redis",
       "elasticsearch", "dynamodb", "firebase"].map String.toList),
    ("devops".toList,
      ["aws", "azure", "gcp", "docker", "kubernetes", "jenkins",
       "terraform", "git", "ci/cd", "github actions"].map String.toList),
    ("data_science".toList,
      ["machine learning", "data analysis", "pandas", "numpy",
       "scikit-learn", "tensorflow", "pytorch", "r", "tableau",
       "power bi"].map String.toList),
    ("soft_skills".toList,
      ["teamwork", "leadership", "communication", "problem solving",
       "critical thinking", "time management"].map String.toList) ]

/-- `ALL_SKILLS`: the category dictionary flattened into one lookup list. -/
def ALL_SKILLS : List (List Char) :=
  COMMON_SKILLS.flatMap (fun cat => cat.2)

example : ALL_SKILLS.length = 57 := by decide

/-- Character class `[\w\+\#\.\-]` of the technical-token pattern. -/
def techClassChar (c : Char) : Bool :=
  isWordChar c || c = '+' || c = '#' || c = '.' || c = '-'

/-- The trailing `\b` of the technical-token pattern, where `j` is the index
of the last character of the candidate match. -/
def endBoundaryOk (s : List Char) (j : Nat) : Bool :=
  wordB s[j]? != wordB s[j + 1]?

/-- Greedy-with-backtracking choice of the `{2,}` repetition count of
`\b[A-Za-z][\w\+\#\.\-]{2,}\b`: the largest `k` between `2` and the length of
the maximal class run that leaves a word boundary after the match. -/
def bestK (s : List Char) (i : Nat) : Nat → Option Nat
  | 0 => none
  | 1 => none
  | k + 2 => if endBoundaryOk s (i + k + 2) then some (k + 2) else bestK s i (k + 1)

/-- Scanner for `re.findall(r'\b[A-Za-z][\w\+\#\.\-]{2,}\b', s)`: leftmost
non-overlapping matches; after a match the scan resumes past it, otherwise it
advances one position.  `fuel` only bounds the recursion. -/
def findTechAux (s : List Char) : Nat → Nat → List (List Char)
  | 0, _ => []
  | fuel + 1, i =>
    if i < s.length then
      match s[i]? with
      | none => []
      | some c =>
        if (decide (i = 0) || !wordB s[i - 1]?) && c.isAlpha then
          let run := ((s.drop (i + 1)).takeWhile techClassChar).length
          match bestK s i run with
          | some k => ((s.drop i).take (k + 1)) :: findTechAux s fuel (i + k + 1)
          | none => findTechAux s fuel (i + 1)
        else findTechAux s fuel (i + 1)
    else []

/-- `re.findall(r'\b[A-Za-z][\w\+\#\.\-]{2,}\b', s)`. -/
def findTechTokens (s : List Char) : List (List Char) :=
  findTechAux s (s.length + 1) 0

example : findTechTokens "Built C++ and Node.js apps".toList
    = ["Built", "and", "Node.js", "apps"].map String.toList := by decide
example : findTechTokens "abc..".toList = ["abc".toList] := by decide

/-- The stop list of the technical-token heuristic in `extract_skills`. -/
def STOPWORDS : List (List Char) :=
  ["the", "and", "for", "with", "that", "have", "this"].map String.toList

/-- Python's `str.isdigit` (ASCII fragment): nonempty and all digits. -/
def isDigitStr (s : List Char) : Bool := !s.isEmpty && s.all Char.isDigit

/-- Lexicographic-by-code-point comparison used to model Python's
`list.sort()` on the extracted skill strings. -/
def strLe : List Char → List Char → Bool
  | [], _ => true
  | _ :: _, [] => false
  | a :: as, b :: bs => if a < b then true else if b < a then false else strLe as bs

/-- Insertion step of the sorting model. -/
def insertSorted (a : List Char) : List (List Char) → List (List Char)
  | [] => [a]
  | b :: bs => if strLe a b then a :: b :: bs else b :: insertSorted a bs

/-- Sorting model for `skills_list.sort()`. -/
def sortStrs : List (List Char) → List (List Char)
  | [] => []
  | a :: as => insertSorted a (sortStrs as)

/-- `ResumeParser(raw).extract_skills()` from `resume_parser.py`: on the
preprocessed text, collect every dictionary skill whose lowercased literal
occurs word-bounded in the lowercased text, plus every technical token
(lowercased) that is longer than two characters, not a stop word and not all
digits; return the deduplicated, sorted list. -/
def extract_skills (raw : List Char) : List (List Char) :=
  let text := preprocess_text raw
  if text = [] then []
  else
    let textLower := lowerStr text
    let dictHits := ALL_SKILLS.filter (fun skill => searchWB (lowerStr skill) textLower)
    let techHits :=
      ((findTechTokens text).filter (fun m =>
        decide (m.length > 2) && !STOPWORDS.contains (lowerStr m) && !isDigitStr m)).map lowerStr
    sortStrs (dictHits ++ techHits).dedup

example : extract_skills "I know Python and React and Docker".toList
    = ["docker", "know", "python", "react"].map String.toList := by decide
example : extract_skills "javascriptx".toList = ["javascriptx".toList] := by decide
example : extract_skills "".toList = [] := by decide

/-- Executable floor of a rational (the denominator is positive, so integer
division of the numerator by it is the floor). -/
def ratFloor (q : ℚ) : ℤ := q.num / q.den

theorem ratFloor_eq (q : ℚ) : ratFloor q = ⌊q⌋ := Rat.floor_def.symm

/-- Round half to even on a rational, the tie-breaking rule of Python's
built-in `round`. -/
def roundHalfEven (q : ℚ) : ℤ :=
  let f : ℤ := ratFloor q
  if q - f < 1 / 2 then f
  else if 1 / 2 < q - f then f + 1
  else if f % 2 = 0 then f else f + 1

/-- Python's `round(x, 2)` on the exact-rational model of floats. -/
def round2 (q : ℚ) : ℚ := (roundHalfEven (q * 100) : ℚ) / 100

example : round2 (100 / 3) = 3333 / 100 := by decide
example : round2 (25 / 8) = 312 / 100 := by decide
example : round2 50 = 50 := by decide

/-- `score_resume_by_skills` from `resume_parser.py`: lowercase the required
skills, word-bounded-search each one in the lowercased preprocessed resume,
and return the percentage of distinct lowercased skills matched (rounded to
2 decimals) together with the matched set (modelled as a deduplicated
list). -/
def score_resume_by_skills (resume_text : List Char) (job_skills : List (List Char)) :
    ℚ × List (List Char) :=
  if job_skills = [] then (0, [])
  else
    let jobSkillsLower := job_skills.map lowerStr
    let resumeLower := lowerStr (preprocess_text resume_text)
    let matched := (jobSkillsLower.filter (fun skill => searchWB skill resumeLower)).dedup
    let score : ℚ := ((matched.length : ℚ) / (jobSkillsLower.dedup.length : ℚ)) * 100
    (round2 score, matched)

example : score_resume_by_skills "I use Python and SQL daily".toList
    (["python", "java"].map String.toList) = (50, ["python".toList]) := by decide

/-- `score_resume_by_text_similarity` from `resume_parser.py`.  The TF-IDF
vectorization and cosine similarity are performed by the external `sklearn`
library, outside this repository; modelled from the spec: the vectorizer is
an abstract oracle `sim` on the two preprocessed texts which returns `none`
when vectorization fails (the `except` branch of the source) and otherwise
the cosine similarity.  Empty input short-circuits to `0`; a failing
vectorization degrades to `0`; otherwise the similarity is scaled to a
percentage and rounded to 2 decimals. -/
def score_resume_by_text_similarity (sim : List Char → List Char → Option ℚ)
    (resume_text job_description_text : List Char) : ℚ :=
  if resume_text = [] ∨ job_description_text = [] then 0
  else
    match sim (preprocess_text resume_text) (preprocess_text job_description_text) with
    | some s => round2 (s * 100)
    | none => 0

/-- The result dictionary of `calculate_final_resume_score`: fields named
after the keys "Skill Match Score", "Text Similarity Score", "Final Resume
Score", "Matched Skills", "Job Skills", "Resume Skills". -/
structure ScoreBundle where
  skillMatchScore : ℚ
  textSimilarityScore : ℚ
  finalResumeScore : ℚ
  matchedSkills : List (List Char)
  jobSkills : List (List Char)
  resumeSkills : List (List Char)
deriving Repr, DecidableEq

/-- `calculate_final_resume_score` from `resume_parser.py`, parameterized by
the external similarity oracle `sim` (see
`score_resume_by_text_similarity`).  Empty input yields the all-zero bundle;
otherwise job and resume skills are extracted, the skill score is computed
against the job skills, the similarity score on the two raw texts, and the
final score is the weighted sum rounded to 2 decimals, with the
caller-supplied weights applied as given. -/
def calculate_final_resume_score (sim : List Char → List Char → Option ℚ)
    (resume_text job_description_text : List Char)
    (skill_weight text_weight : ℚ) : ScoreBundle :=
  if resume_text = [] ∨ job_description_text = [] then
    ⟨0, 0, 0, [], [], []⟩
  else
    let jobSkills := extract_skills job_description_text
    let resumeSkills := extract_skills resume_text
    let scored := score_resume_by_skills resume_text jobSkills
    let textSimilarityScore :=
      score_resume_by_text_similarity sim resume_text job_description_text
    let finalScore := round2 (scored.1 * skill_weight + textSimilarityScore * text_weight)
    ⟨scored.1, textSimilarityScore, finalScore, scored.2, jobSkills, resumeSkills⟩

example :
    (calculate_final_resume_score (fun _ _ => some (4 / 5)) "python".toList
      "python".toList (7 / 10) (3 / 10)).finalResumeScore = 94 := by decide
example :
    (calculate_final_resume_score (fun _ _ => none) "python".toList
      "python and sql".toList (7 / 10) (3 / 10)).matchedSkills = ["python".toList] := by
  decide

/-! ### Character-level lemmas -/

/-- The upper-case ASCII letters, the only characters moved by `lowerChar`. -/
def UPPERS : List Char :=
  ['A', 'B', 'C', 'D', 'E', 'F', 'G', 'H', 'I', 'J', 'K', 'L', 'M',
   'N', 'O', 'P', 'Q', 'R', 'S', 'T', 'U', 'V', 'W', 'X', 'Y', 'Z']

theorem lowerTable_fst : ∀ p ∈ lowerTable, p.1 ∈ UPPERS := by decide

theorem lowerChar_eq_self {c : Char} (hc : c ∉ UPPERS) : lowerChar c = c := by
  unfold lowerChar
  have hnone : lowerTable.find? (fun p => p.1 == c) = none := by
    rw [List.find?_eq_none]
    intro p hp hbeq
    exact hc (eq_of_beq hbeq ▸ lowerTable_fst p hp)
  rw [hnone]

theorem lowerChar_lowerChar (c : Char) : lowerChar (lowerChar c) = lowerChar c := by
  by_cases hc : c ∈ UPPERS
  · unfold UPPERS at hc; fin_cases hc <;> decide
  · simp only [lowerChar_eq_self hc]

theorem isWordChar_lowerChar (c : Char) : isWordChar (lowerChar c) = isWordChar c := by
  by_cases hc : c ∈ UPPERS
  · unfold UPPERS at hc; fin_cases hc <;> decide
  · rw [lowerChar_eq_self hc]

theorem lowerChar_eq_slash {c : Char} (h : lowerChar c = '/') : c = '/' := by
  by_cases hc : c ∈ UPPERS
  · unfold UPPERS at hc; fin_cases hc <;> exact absurd h (by decide)
  · rw [lowerChar_eq_self hc] at h; exact h

theorem lowerStr_lowerStr (s : List Char) : lowerStr (lowerStr s) = lowerStr s := by
  unfold lowerStr
  rw [List.map_map]
  exact List.map_congr_left fun c _ => lowerChar_lowerChar c

theorem lowerStr_length (s : List Char) : (lowerStr s).length = s.length :=
  List.length_map s lowerChar

/-- A whitespace character is never a word character. -/
theorem not_word_of_space {c : Char} (h : isSpaceChar c = true) : isWordChar c = false := by
  simp only [isSpaceChar, Bool.or_eq_true, decide_eq_true_eq] at h
  rcases h with ((((h | h) | h) | h) | h) | h <;> subst h <;> decide

/-- Characters that can appear in the output of `preprocess_text`: word
characters, the plain space, `.` and `-`. -/
def allowedOut (c : Char) : Bool :=
  isWordChar c || c = ' ' || c = '.' || c = '-'

/-! ### Structure of the output of `preprocess_text` -/

theorem mem_collapseWsAux {c : Char} :
    ∀ (b : Bool) (l : List Char), c ∈ collapseWsAux b l →
      c = ' ' ∨ (c ∈ l ∧ isSpaceChar c = false) := by
  intro b l
  induction l generalizing b with
  | nil => intro h; exact absurd h (List.not_mem_nil c)
  | cons a as ih =>
    intro h
    unfold collapseWsAux at h
    by_cases hsp : isSpaceChar a = true
    · rw [if_pos hsp] at h
      cases b with
      | true =>
        rcases ih true h with h1 | ⟨h1, h2⟩
        · exact Or.inl h1
        · exact Or.inr ⟨List.mem_cons_of_mem a h1, h2⟩
      | false =>
        rcases List.mem_cons.mp h with h1 | h1
        · exact Or.inl h1
        · rcases ih true h1 with h2 | ⟨h2, h3⟩
          · exact Or.inl h2
          · exact Or.inr ⟨List.mem_cons_of_mem a h2, h3⟩
    · rw [if_neg hsp] at h
      rcases List.mem_cons.mp h with h1 | h1
      · subst h1
        exact Or.inr ⟨List.mem_cons_self c as, Bool.not_eq_true _ ▸ hsp⟩
      · rcases ih false h1 with h2 | ⟨h2, h3⟩
        · exact Or.inl h2
        · exact Or.inr ⟨List.mem_cons_of_mem a h2, h3⟩

theorem mem_stripChars {c : Char} {l : List Char} (h : c ∈ stripChars l) : c ∈ l := by
  unfold stripChars at h
  rw [List.mem_reverse] at h
  have h2 : c ∈ (l.dropWhile isSpaceChar).reverse :=
    (List.dropWhile_sublist _).subset h
  rw [List.mem_reverse] at h2
  exact (List.dropWhile_sublist _).subset h2

theorem mem_preprocess_allowed {c : Char} {t : List Char}
    (h : c ∈ preprocess_text t) : allowedOut c = true := by
  unfold preprocess_text at h
  by_cases h0 : t = []
  · rw [if_pos h0] at h
    exact absurd h (List.not_mem_nil c)
  · rw [if_neg h0] at h
    have h1 : c ∈ sub3 (collapseWs (sub1 t)) := mem_stripChars h
    rw [sub3, List.mem_map] at h1
    obtain ⟨d, hd, hdc⟩ := h1
    unfold sub3Char at hdc
    by_cases hkeep : (isWordChar d || isSpaceChar d || d = '.' || d = '-') = true
    · rw [if_pos hkeep] at hdc
      subst hdc
      simp only [Bool.or_eq_true, decide_eq_true_eq] at hkeep
      rcases hkeep with ((hw | hsp) | hdot) | hdash
      · simp [allowedOut, hw]
      · rcases mem_collapseWsAux false (sub1 t) hd with h2 | ⟨_, h3⟩
        · simp [allowedOut, h2]
        · rw [h3] at hsp; exact absurd hsp (by decide)
      · simp [allowedOut, hdot]
      · simp [allowedOut, hdash]
    · rw [if_neg hkeep] at hdc
      subst hdc
      decide

theorem slash_not_mem_lower_preprocess {t : List Char} :
    '/' ∉ lowerStr (preprocess_text t) := by
  intro h
  rw [lowerStr, List.mem_map] at h
  obtain ⟨d, hd, hdc⟩ := h
  have hd' : d = '/' := lowerChar_eq_slash hdc
  subst hd'
  exact absurd (mem_preprocess_allowed hd) (by decide)

/-! ### Word-bounded search lemmas -/

theorem searchWB_subset {needle hay : List Char} (h : searchWB needle hay = true) :
    ∀ c ∈ needle, c ∈ hay := by
  unfold searchWB at h
  rw [List.any_eq_true] at h
  obtain ⟨i, _, hm⟩ := h
  unfold matchAt at hm
  rw [Bool.and_eq_true, Bool.and_eq_true] at hm
  obtain ⟨⟨hs, _⟩, _⟩ := hm
  rw [decide_eq_true_eq] at hs
  intro c hc
  rw [← hs] at hc
  exact (List.drop_subset i hay) ((List.take_subset _ _) hc)

theorem bne_comm (a b : Bool) : (a != b) = (b != a) := by
  cases a <;> cases b <;> rfl

theorem searchWB_of_matchAt {needle hay : List Char} {i : Nat}
    (hm : matchAt needle hay i = true) (hi : i ≤ hay.length) :
    searchWB needle hay = true := by
  unfold searchWB
  rw [List.any_eq_true]
  exact ⟨i, List.mem_range.mpr (Nat.lt_succ_of_le hi), hm⟩

/-! ### Technical-token scanner lemmas -/

theorem endBoundaryOk_lt {s : List Char} {j : Nat} (h : endBoundaryOk s j = true) :
    j < s.length := by
  by_contra hj
  push_neg at hj
  unfold endBoundaryOk at h
  rw [List.getElem?_eq_none hj, List.getElem?_eq_none (Nat.le_succ_of_le hj)] at h
  exact absurd h (by decide)

theorem bestK_spec (s : List Char) (i : Nat) :
    ∀ n k, bestK s i n = some k → 2 ≤ k ∧ endBoundaryOk s (i + k) = true := by
  intro n
  induction n using Nat.strong_induction_on with
  | _ n ih =>
    intro k h
    match n with
    | 0 => exact absurd h (by simp [bestK])
    | 1 => exact absurd h (by simp [bestK])
    | m + 2 =>
      unfold bestK at h
      by_cases hb : endBoundaryOk s (i + m + 2) = true
      · rw [if_pos hb] at h
        injection h with h
        subst h
        refine ⟨by omega, ?_⟩
        have : i + (m + 2) = i + m + 2 := by omega
        rw [this]
        exact hb
      · rw [if_neg hb] at h
        exact ih (m + 1) (by omega) k h

/-- The data carried by each emitted technical token: its position, its
repetition count, the start boundary, the leading letter and the end
boundary. -/
def techWitness (s m : List Char) (i k : Nat) : Prop :=
  2 ≤ k ∧ i + k < s.length ∧ m = (s.drop i).take (k + 1) ∧
  (i = 0 ∨ wordB s[i - 1]? = false) ∧
  (∃ c, s[i]? = some c ∧ c.isAlpha = true) ∧
  endBoundaryOk s (i + k) = true

theorem findTechAux_sound (s : List Char) :
    ∀ (fuel i₀ : Nat) (m : List Char), m ∈ findTechAux s fuel i₀ →
      ∃ i k, techWitness s m i k := by
  intro fuel
  induction fuel with
  | zero => intro i₀ m h; exact absurd h (List.not_mem_nil m)
  | succ fuel ih =>
    intro i₀ m h
    unfold findTechAux at h
    by_cases hi : i₀ < s.length
    · rw [if_pos hi] at h
      rcases hc : s[i₀]? with _ | c
      · rw [hc] at h; exact absurd h (List.not_mem_nil m)
      · rw [hc] at h
        simp only [] at h
        by_cases hg : ((decide (i₀ = 0) || !wordB s[i₀ - 1]?) && c.isAlpha) = true
        · rw [if_pos hg] at h
          rcases hbk : bestK s i₀ (((s.drop (i₀ + 1)).takeWhile techClassChar).length)
            with _ | k
          · rw [hbk] at h
            exact ih (i₀ + 1) m h
          · rw [hbk] at h
            simp only [] at h
            rcases List.mem_cons.mp h with h1 | h1
            · obtain ⟨hk2, hend⟩ := bestK_spec s i₀ _ k hbk
              rw [Bool.and_eq_true] at hg
              obtain ⟨hstart, halpha⟩ := hg
              refine ⟨i₀, k, hk2, endBoundaryOk_lt hend, h1, ?_, ⟨c, hc, halpha⟩, hend⟩
              rw [Bool.or_eq_true] at hstart
              rcases hstart with h2 | h2
              · exact Or.inl (of_decide_eq_true h2)
              · exact Or.inr (by rw [Bool.not_eq_true'] at h2; exact h2)
            · exact ih (i₀ + k + 1) m h1
        · rw [if_neg hg] at h
          exact ih (i₀ + 1) m h
    · rw [if_neg hi] at h
      exact absurd h (List.not_mem_nil m)

theorem findTechTokens_sound {s m : List Char} (h : m ∈ findTechTokens s) :
    ∃ i k, techWitness s m i k :=
  findTechAux_sound s (s.length + 1) 0 m h

/-- A character is a word character if it is an ASCII letter. -/
theorem isWordChar_of_isAlpha {c : Char} (h : c.isAlpha = true) :
    isWordChar c = true := by
  simp [isWordChar, Char.isAlphanum, h]

/-- Every emitted technical token is itself a word-bounded match of the
haystack at its position. -/
theorem matchAt_of_techWitness {s m : List Char} {i k : Nat}
    (h : techWitness s m i k) : matchAt m s i = true := by
  obtain ⟨hk2, hik, hm, hstart, ⟨c, hc, halpha⟩, hend⟩ := h
  have hlen : m.length = k + 1 := by
    rw [hm, List.length_take, List.length_drop]
    omega
  have hhead : m.head? = some c := by
    rw [List.head?_eq_getElem?, hm, List.getElem?_take_of_lt (by omega : 0 < k + 1),
      List.getElem?_drop, Nat.add_zero]
    exact hc
  have hlast : m.getLast? = s[i + k]? := by
    rw [List.getLast?_eq_getElem?, hlen, Nat.add_sub_cancel, hm,
      List.getElem?_take_of_lt (by omega : k < k + 1), List.getElem?_drop]
  unfold matchAt
  rw [Bool.and_eq_true, Bool.and_eq_true]
  refine ⟨⟨?_, ?_⟩, ?_⟩
  · rw [decide_eq_true_eq, hlen, hm]
  · rw [hhead]
    have hw : wordB (some c) = true := by
      simp [wordB, isWordChar_of_isAlpha halpha]
    rw [hw]
    have hleft : wordB (if i = 0 then none else s[i - 1]?) = false := by
      by_cases hi0 : i = 0
      · rw [if_pos hi0]; rfl
      · rw [if_neg hi0]
        rcases hstart with h1 | h1
        · exact absurd h1 hi0
        · exact h1
    rw [hleft]
    rfl
  · rw [hlast, hlen, bne_comm]
    unfold endBoundaryOk at hend
    have hidx : i + (k + 1) = i + k + 1 := by omega
    rw [hidx]
    exact hend

theorem wordB_map_lower (o : Option Char) : wordB (o.map lowerChar) = wordB o := by
  cases o with
  | none => rfl
  | some c => exact isWordChar_lowerChar c

/-- A word-bounded match survives lowercasing of both needle and haystack. -/
theorem matchAt_lower {needle hay : List Char} {i : Nat}
    (h : matchAt needle hay i = true) :
    matchAt (lowerStr needle) (lowerStr hay) i = true := by
  unfold matchAt at h ⊢
  rw [Bool.and_eq_true, Bool.and_eq_true] at h
  obtain ⟨⟨hs, hstart⟩, hend⟩ := h
  rw [decide_eq_true_eq] at hs
  rw [Bool.and_eq_true, Bool.and_eq_true]
  refine ⟨⟨?_, ?_⟩, ?_⟩
  · rw [decide_eq_true_eq]
    unfold lowerStr
    rw [List.length_map, ← List.map_drop, ← List.map_take, hs]
  · unfold lowerStr
    rw [List.head?_map, wordB_map_lower]
    have hflank : (if i = 0 then none else (hay.map lowerChar)[i - 1]?)
        = Option.map lowerChar (if i = 0 then none else hay[i - 1]?) := by
      by_cases hi0 : i = 0
      · rw [if_pos hi0, if_pos hi0]; rfl
      · rw [if_neg hi0, if_neg hi0, List.getElem?_map]
    rw [hflank, wordB_map_lower]
    exact hstart
  · unfold lowerStr
    rw [List.getLast?_map, wordB_map_lower, List.length_map, List.getElem?_map,
      wordB_map_lower]
    exact hend

/-! ### Extraction soundness -/

theorem mem_insertSorted {x a : List Char} {l : List (List Char)} :
    x ∈ insertSorted a l ↔ x = a ∨ x ∈ l := by
  induction l with
  | nil => simp [insertSorted]
  | cons b bs ih =>
    unfold insertSorted
    by_cases hle : strLe a b = true
    · rw [if_pos hle]
      simp [List.mem_cons]
    · rw [if_neg hle]
      rw [List.mem_cons, ih, List.mem_cons]
      tauto

theorem mem_sortStrs {x : List Char} {l : List (List Char)} :
    x ∈ sortStrs l ↔ x ∈ l := by
  induction l with
  | nil => simp [sortStrs]
  | cons a as ih =>
    unfold sortStrs
    rw [mem_insertSorted, ih, List.mem_cons]

/-- Every entry of the static skill dictionary is already lower-case. -/
theorem all_skills_lower : ∀ s ∈ ALL_SKILLS, lowerStr s = s := by decide

/-- Every element of `extract_skills` comes from the dictionary tier (a
dictionary term whose lowercased form occurs word-bounded in the lowercased
normalized text) or from the technical-token tier (the lowercasing of a
scanned token). -/
theorem extract_skills_cases {raw s : List Char} (h : s ∈ extract_skills raw) :
    (s ∈ ALL_SKILLS ∧ searchWB (lowerStr s) (lowerStr (preprocess_text raw)) = true) ∨
    (∃ m, m ∈ findTechTokens (preprocess_text raw) ∧ s = lowerStr m) := by
  simp only [extract_skills] at h
  by_cases h0 : preprocess_text raw = []
  · rw [if_pos h0] at h
    exact absurd h (List.not_mem_nil s)
  · rw [if_neg h0] at h
    rw [mem_sortStrs, List.mem_dedup, List.mem_append] at h
    rcases h with h | h
    · rw [List.mem_filter] at h
      exact Or.inl ⟨h.1, h.2⟩
    · rw [List.mem_map] at h
      obtain ⟨m, hm, hms⟩ := h
      rw [List.mem_filter] at hm
      exact Or.inr ⟨m, hm.1, hms.symm⟩

/-- Everything `extract_skills` returns is lower-case (fixed by
lowercasing). -/
theorem extract_skills_lower {raw s : List Char} (h : s ∈ extract_skills raw) :
    lowerStr s = s := by
  rcases extract_skills_cases h with ⟨hs, _⟩ | ⟨m, _, hm⟩
  · exact all_skills_lower s hs
  · rw [hm, lowerStr_lowerStr]

/-- Everything `extract_skills` returns occurs word-bounded in the lowercased
normalized text. -/
theorem extract_skills_wordBounded {raw s : List Char} (h : s ∈ extract_skills raw) :
    searchWB s (lowerStr (preprocess_text raw)) = true := by
  rcases extract_skills_cases h with ⟨hs, hsearch⟩ | ⟨m, hm, hms⟩
  · rw [← all_skills_lower s hs]
    exact hsearch
  · subst hms
    obtain ⟨i, k, hw⟩ := findTechTokens_sound hm
    have h2 := matchAt_lower (matchAt_of_techWitness hw)
    apply searchWB_of_matchAt h2
    rw [lowerStr_length]
    have h3 : i + k < (preprocess_text raw).length := hw.2.1
    omega

/-! ### Rounding lemmas -/

theorem roundHalfEven_intCast (k : ℤ) : roundHalfEven (k : ℚ) = k := by
  simp only [roundHalfEven]
  rw [ratFloor_eq, Int.floor_intCast, sub_self,
    if_pos (by norm_num : (0 : ℚ) < 1 / 2)]

theorem roundHalfEven_nonneg {q : ℚ} (h : 0 ≤ q) : 0 ≤ roundHalfEven q := by
  simp only [roundHalfEven]
  rw [ratFloor_eq]
  have hf : (0 : ℤ) ≤ ⌊q⌋ := Int.le_floor.mpr (by exact_mod_cast h)
  split_ifs <;> omega

theorem roundHalfEven_le {q : ℚ} {n : ℤ} (h : q ≤ (n : ℚ)) : roundHalfEven q ≤ n := by
  simp only [roundHalfEven]
  rw [ratFloor_eq]
  have hf : ⌊q⌋ ≤ n := by
    have h1 := Int.floor_mono h
    rwa [Int.floor_intCast] at h1
  by_cases heq : ⌊q⌋ = n
  · have hq : q - (⌊q⌋ : ℚ) ≤ 0 := by
      rw [heq]
      linarith
    rw [if_pos (by linarith : q - (⌊q⌋ : ℚ) < 1 / 2)]
    omega
  · split_ifs <;> omega

theorem round2_nonneg {q : ℚ} (h : 0 ≤ q) : 0 ≤ round2 q := by
  unfold round2
  have h1 := @roundHalfEven_nonneg (q * 100) (by linarith)
  have h2 : (0 : ℚ) ≤ (roundHalfEven (q * 100) : ℚ) := by exact_mod_cast h1
  linarith

theorem round2_le {q : ℚ} {n : ℤ} (h : q ≤ (n : ℚ)) : round2 q ≤ (n : ℚ) := by
  unfold round2
  have h1 : q * 100 ≤ ((100 * n : ℤ) : ℚ) := by push_cast; linarith
  have h2 := roundHalfEven_le h1
  have h3 : (roundHalfEven (q * 100) : ℚ) ≤ ((100 * n : ℤ) : ℚ) := by exact_mod_cast h2
  rw [div_le_iff₀ (by norm_num : (0 : ℚ) < 100)]
  push_cast at h3 ⊢
  linarith

theorem round2_div100 (k : ℤ) : round2 ((k : ℚ) / 100) = (k : ℚ) / 100 := by
  unfold round2
  have h : (k : ℚ) / 100 * 100 = (k : ℚ) := by field_simp
  rw [h, roundHalfEven_intCast]

theorem round2_round2 (q : ℚ) : round2 (round2 q) = round2 q :=
  round2_div100 (roundHalfEven (q * 100))

/-! ### Skill-scorer lemmas -/

theorem score_skills_empty (resume : List Char) :
    score_resume_by_skills resume [] = (0, []) := rfl

theorem score_skills_matched_subset {resume : List Char} {js : List (List Char)} :
    ∀ x ∈ (score_resume_by_skills resume js).2, x ∈ js.map lowerStr := by
  intro x hx
  simp only [score_resume_by_skills] at hx
  by_cases h0 : js = []
  · rw [if_pos h0] at hx
    exact absurd hx (List.not_mem_nil x)
  · rw [if_neg h0] at hx
    rw [List.mem_dedup, List.mem_filter] at hx
    exact hx.1

theorem filter_dedup_length_le {α : Type} [DecidableEq α] (l : List α) (p : α → Bool) :
    ((l.filter p).dedup).length ≤ l.dedup.length := by
  rw [← List.card_toFinset, ← List.card_toFinset]
  apply Finset.card_le_card
  intro x hx
  rw [List.mem_toFinset] at hx ⊢
  exact List.mem_of_mem_filter hx

theorem dedup_ne_nil {α : Type} [DecidableEq α] {l : List α} (h : l ≠ []) :
    l.dedup ≠ [] := by
  cases l with
  | nil => exact absurd rfl h
  | cons a as =>
    exact List.ne_nil_of_mem (List.mem_dedup.mpr (List.mem_cons_self a as))

theorem score_skills_formula {resume : List Char} {js : List (List Char)}
    (h : js ≠ []) :
    (score_resume_by_skills resume js).1
      = round2 (100 * ((score_resume_by_skills resume js).2.length : ℚ)
          / (((js.map lowerStr).dedup.length : ℚ))) := by
  simp only [score_resume_by_skills, if_neg h]
  congr 1
  ring

theorem score_skills_bounds (resume : List Char) (js : List (List Char)) :
    0 ≤ (score_resume_by_skills resume js).1
      ∧ (score_resume_by_skills resume js).1 ≤ 100
      ∧ round2 (score_resume_by_skills resume js).1
          = (score_resume_by_skills resume js).1 := by
  by_cases h0 : js = []
  · subst h0
    rw [score_skills_empty]
    refine ⟨le_refl 0, by norm_num, by decide⟩
  · simp only [score_resume_by_skills, if_neg h0]
    have hm := filter_dedup_length_le (js.map lowerStr)
      (fun skill => searchWB skill (lowerStr (preprocess_text resume)))
    have hu : (js.map lowerStr).dedup ≠ [] :=
      dedup_ne_nil (by simp [h0])
    have hu1 : 1 ≤ (js.map lowerStr).dedup.length :=
      List.length_pos.mpr hu
    have hmq : ((List.filter (fun skill => searchWB skill (lowerStr (preprocess_text resume)))
        (js.map lowerStr)).dedup.length : ℚ)
        ≤ ((js.map lowerStr).dedup.length : ℚ) := by exact_mod_cast hm
    have huq : (0 : ℚ) < ((js.map lowerStr).dedup.length : ℚ) := by exact_mod_cast hu1
    have hb0 : (0 : ℚ) ≤ ((List.filter (fun skill => searchWB skill (lowerStr (preprocess_text resume)))
        (js.map lowerStr)).dedup.length : ℚ) / ((js.map lowerStr).dedup.length : ℚ) * 100 := by
      positivity
    have hb1 : ((List.filter (fun skill => searchWB skill (lowerStr (preprocess_text resume)))
        (js.map lowerStr)).dedup.length : ℚ) / ((js.map lowerStr).dedup.length : ℚ) * 100
        ≤ ((100 : ℤ) : ℚ) := by
      rw [div_mul_eq_mul_div, div_le_iff₀ huq]
      push_cast
      nlinarith
    refine ⟨round2_nonneg hb0, ?_, round2_round2 _⟩
    have := round2_le hb1
    push_cast at this
    exact this

/-! ### Similarity-scorer and aggregator lemmas -/

theorem score_similarity_bounds (sim : List Char → List Char → Option ℚ)
    (r j : List Char)
    (hsim : ∀ a b q, sim a b = some q → 0 ≤ q ∧ q ≤ 1) :
    0 ≤ score_resume_by_text_similarity sim r j
      ∧ score_resume_by_text_similarity sim r j ≤ 100
      ∧ round2 (score_resume_by_text_similarity sim r j)
          = score_resume_by_text_similarity sim r j := by
  unfold score_resume_by_text_similarity
  by_cases h0 : r = [] ∨ j = []
  · rw [if_pos h0]
    refine ⟨le_refl 0, by norm_num, by decide⟩
  · rw [if_neg h0]
    rcases hs : sim (preprocess_text r) (preprocess_text j) with _ | q
    · refine ⟨le_refl 0, by norm_num, by decide⟩
    · obtain ⟨hq0, hq1⟩ := hsim _ _ _ hs
      have hb0 : (0 : ℚ) ≤ q * 100 := by linarith
      have hb1 : q * 100 ≤ ((100 : ℤ) : ℚ) := by push_cast; linarith
      refine ⟨round2_nonneg hb0, ?_, round2_round2 _⟩
      have := round2_le hb1
      push_cast at this
      exact this

theorem score_similarity_empty (sim : List Char → List Char → Option ℚ)
    (r j : List Char) (h : r = [] ∨ j = []) :
    score_resume_by_text_similarity sim r j = 0 := by
  unfold score_resume_by_text_similarity
  rw [if_pos h]

theorem score_similarity_failure (sim : List Char → List Char → Option ℚ)
    (r j : List Char)
    (h : sim (preprocess_text r) (preprocess_text j) = none) :
    score_resume_by_text_similarity sim r j = 0 := by
  unfold score_resume_by_text_similarity
  by_cases h0 : r = [] ∨ j = []
  · rw [if_pos h0]
  · rw [if_neg h0, h]

/-- Unfolding of the aggregator on non-empty inputs. -/
theorem calculate_final_unfold (sim : List Char → List Char → Option ℚ)
    (r j : List Char) (w1 w2 : ℚ) (hr : r ≠ []) (hj : j ≠ []) :
    calculate_final_resume_score sim r j w1 w2 =
      { skillMatchScore := (score_resume_by_skills r (extract_skills j)).1
        textSimilarityScore := score_resume_by_text_similarity sim r j
        finalResumeScore := round2 ((score_resume_by_skills r (extract_skills j)).1 * w1
          + score_resume_by_text_similarity sim r j * w2)
        matchedSkills := (score_resume_by_skills r (extract_skills j)).2
        jobSkills := extract_skills j
        resumeSkills := extract_skills r } := by
  simp only [calculate_final_resume_score, if_neg (not_or.mpr ⟨hr, hj⟩)]

/-! ### Normalizer stabilization (for the idempotence claim) -/

/-- No two adjacent whitespace characters. -/
def noTwoSpaces : List Char → Bool
  | a :: b :: rest => (!(isSpaceChar a && isSpaceChar b)) && noTwoSpaces (b :: rest)
  | _ => true

theorem noTwoSpaces_tail {a : Char} {l : List Char}
    (h : noTwoSpaces (a :: l) = true) : noTwoSpaces l = true := by
  cases l with
  | nil => rfl
  | cons b bs =>
    unfold noTwoSpaces at h
    rw [Bool.and_eq_true] at h
    exact h.2

theorem sub1Char_allowed {c : Char} (h : allowedOut c = true) : sub1Char c = c := by
  unfold sub1Char
  by_cases hc : (c = '\n' || c = '\t' || c = '\r') = true
  · exfalso
    simp only [Bool.or_eq_true, decide_eq_true_eq] at hc
    rcases hc with (hc | hc) | hc <;> subst hc <;> exact absurd h (by decide)
  · rw [if_neg hc]

theorem sub1_eq_self {l : List Char} (h : ∀ c ∈ l, allowedOut c = true) :
    sub1 l = l := by
  unfold sub1
  have heq : l.map sub1Char = l.map id :=
    List.map_congr_left (fun c hc => sub1Char_allowed (h c hc))
  rw [heq, List.map_id]

theorem sub3Char_allowed {c : Char} (h : allowedOut c = true) : sub3Char c = c := by
  unfold sub3Char
  rw [if_pos]
  simp only [allowedOut, Bool.or_eq_true, decide_eq_true_eq] at h
  simp only [Bool.or_eq_true, decide_eq_true_eq]
  rcases h with ((hw | hsp) | hd) | hh
  · exact Or.inl (Or.inl (Or.inl hw))
  · subst hsp
    exact Or.inl (Or.inl (Or.inr (by decide)))
  · exact Or.inl (Or.inr hd)
  · exact Or.inr hh

theorem sub3_eq_self {l : List Char} (h : ∀ c ∈ l, allowedOut c = true) :
    sub3 l = l := by
  unfold sub3
  have heq : l.map sub3Char = l.map id :=
    List.map_congr_left (fun c hc => sub3Char_allowed (h c hc))
  rw [heq, List.map_id]

theorem collapseWsAux_true_head {c : Char} :
    ∀ l : List Char, (collapseWsAux true l).head? = some c → isSpaceChar c = false := by
  intro l
  induction l with
  | nil => intro h; exact absurd h (by simp [collapseWsAux])
  | cons a as ih =>
    intro h
    by_cases hsp : isSpaceChar a = true
    · have he : collapseWsAux true (a :: as) = collapseWsAux true as := by
        simp [collapseWsAux, hsp]
      rw [he] at h
      exact ih h
    · have he : collapseWsAux true (a :: as) = a :: collapseWsAux false as := by
        simp [collapseWsAux, hsp]
      rw [he, List.head?_cons] at h
      injection h with h
      subst h
      exact Bool.not_eq_true _ ▸ hsp

theorem collapseWsAux_false_head {a : Char} {as : List Char}
    (ha : isSpaceChar a = false) :
    (collapseWsAux false (a :: as)).head? = some a := by
  unfold collapseWsAux
  rw [if_neg (by simp [ha]), List.head?_cons]

theorem getLast?_cons_some {x c : Char} {l : List Char}
    (h : l.getLast? = some c) : (x :: l).getLast? = some c := by
  cases l with
  | nil => simp at h
  | cons y ys => rw [List.getLast?_cons_cons]; exact h

theorem collapseWsAux_getLast {c : Char} (hc : isSpaceChar c = false) :
    ∀ (l : List Char) (b : Bool), l.getLast? = some c →
      (collapseWsAux b l).getLast? = some c := by
  intro l
  induction l with
  | nil => intro b h; simp at h
  | cons a as ih =>
    intro b h
    cases as with
    | nil =>
      rw [List.getLast?_singleton] at h
      injection h with h
      subst h
      have hns : ¬(isSpaceChar a = true) := by simp [hc]
      cases b with
      | true =>
        have he : collapseWsAux true [a] = [a] := by
          unfold collapseWsAux
          rw [if_neg hns]
          rfl
        rw [he, List.getLast?_singleton]
      | false =>
        have he : collapseWsAux false [a] = [a] := by
          unfold collapseWsAux
          rw [if_neg hns]
          rfl
        rw [he, List.getLast?_singleton]
    | cons a2 as2 =>
      have htail : (a2 :: as2).getLast? = some c := by
        rw [List.getLast?_cons_cons] at h
        exact h
      by_cases hsp : isSpaceChar a = true
      · cases b with
        | true =>
          have he : collapseWsAux true (a :: a2 :: as2) = collapseWsAux true (a2 :: as2) := by
            simp [collapseWsAux, hsp]
          rw [he]
          exact ih true htail
        | false =>
          have he : collapseWsAux false (a :: a2 :: as2)
              = ' ' :: collapseWsAux true (a2 :: as2) := by
            simp [collapseWsAux, hsp]
          rw [he]
          exact getLast?_cons_some (ih true htail)
      · have he : collapseWsAux b (a :: a2 :: as2) = a :: collapseWsAux false (a2 :: as2) := by
          simp [collapseWsAux, hsp]
        rw [he]
        exact getLast?_cons_some (ih false htail)

theorem noTwoSpaces_collapseWsAux :
    ∀ (l : List Char) (b : Bool), noTwoSpaces (collapseWsAux b l) = true := by
  intro l
  induction l with
  | nil => intro b; rfl
  | cons a as ih =>
    intro b
    by_cases hsp : isSpaceChar a = true
    · cases b with
      | true =>
        have he : collapseWsAux true (a :: as) = collapseWsAux true as := by
          simp [collapseWsAux, hsp]
        rw [he]
        exact ih true
      | false =>
        have he : collapseWsAux false (a :: as) = ' ' :: collapseWsAux true as := by
          simp [collapseWsAux, hsp]
        rw [he]
        rcases hX : collapseWsAux true as with _ | ⟨d, ds⟩
        · rfl
        · have hd : isSpaceChar d = false :=
            collapseWsAux_true_head as (by rw [hX]; rfl)
          unfold noTwoSpaces
          rw [Bool.and_eq_true]
          refine ⟨by simp [hd], ?_⟩
          rw [← hX]
          exact ih true
    · have ha : isSpaceChar a = false := Bool.not_eq_true _ ▸ hsp
      have he : collapseWsAux b (a :: as) = a :: collapseWsAux false as := by
        simp [collapseWsAux, hsp]
      rw [he]
      rcases hX : collapseWsAux false as with _ | ⟨d, ds⟩
      · rfl
      · unfold noTwoSpaces
        rw [Bool.and_eq_true]
        refine ⟨by simp [ha], ?_⟩
        rw [← hX]
        exact ih false

theorem collapseWsAux_id :
    ∀ l : List Char, noTwoSpaces l = true → (∀ c ∈ l, isSpaceChar c = true → c = ' ') →
      collapseWsAux false l = l
        ∧ ((∀ c, l.head? = some c → isSpaceChar c = false) → collapseWsAux true l = l) := by
  intro l
  induction l with
  | nil => exact fun _ _ => ⟨rfl, fun _ => rfl⟩
  | cons a as ih =>
    intro hnts hsp
    have htailn := noTwoSpaces_tail hnts
    have htails : ∀ c ∈ as, isSpaceChar c = true → c = ' ' :=
      fun c hc => hsp c (List.mem_cons_of_mem a hc)
    obtain ⟨ihf, iht⟩ := ih htailn htails
    by_cases ha : isSpaceChar a = true
    · have ha' : a = ' ' := hsp a (List.mem_cons_self a as) ha
      subst ha'
      constructor
      · have he : collapseWsAux false (' ' :: as) = ' ' :: collapseWsAux true as := by
          simp [collapseWsAux, isSpaceChar]
        rw [he]
        congr 1
        apply iht
        intro c hc
        cases as with
        | nil => simp at hc
        | cons d ds =>
          rw [List.head?_cons] at hc
          injection hc with hc
          subst hc
          unfold noTwoSpaces at hnts
          rw [Bool.and_eq_true] at hnts
          have h1 := hnts.1
          by_contra hcs
          rw [Bool.not_eq_false] at hcs
          rw [hcs] at h1
          have h2 : isSpaceChar ' ' = true := by decide
          rw [h2] at h1
          exact absurd h1 (by decide)
      · intro hhead
        have := hhead ' ' List.head?_cons
        exact absurd this (by decide)
    · have he : ∀ b, collapseWsAux b (a :: as) = a :: collapseWsAux false as := by
        intro b
        simp [collapseWsAux, ha]
      refine ⟨?_, fun _ => ?_⟩
      · rw [he false, ihf]
      · rw [he true, ihf]

theorem dropWhile_head_not {p : Char → Bool} :
    ∀ (l : List Char) (c : Char), (l.dropWhile p).head? = some c → p c = false := by
  intro l
  induction l with
  | nil => intro c h; simp at h
  | cons a as ih =>
    intro c h
    by_cases hp : p a = true
    · rw [List.dropWhile_cons, if_pos hp] at h
      exact ih c h
    · rw [List.dropWhile_cons, if_neg hp, List.head?_cons] at h
      injection h with h
      subst h
      exact Bool.not_eq_true _ ▸ hp

theorem dropWhile_eq_self_of_head {p : Char → Bool} {l : List Char}
    (h : ∀ c, l.head? = some c → p c = false) : l.dropWhile p = l := by
  cases l with
  | nil => rfl
  | cons a as =>
    rw [List.dropWhile_cons, if_neg (by simp [h a List.head?_cons])]

theorem stripChars_eq_self {l : List Char}
    (hh : ∀ c, l.head? = some c → isSpaceChar c = false)
    (hl : ∀ c, l.getLast? = some c → isSpaceChar c = false) : stripChars l = l := by
  unfold stripChars
  rw [dropWhile_eq_self_of_head hh]
  rw [dropWhile_eq_self_of_head (fun c hc => hl c (by rwa [List.head?_reverse] at hc))]
  rw [List.reverse_reverse]

theorem stripChars_head {l : List Char} {c : Char}
    (h : (stripChars l).head? = some c) : isSpaceChar c = false := by
  unfold stripChars at h
  rw [List.head?_reverse] at h
  have h1 : ((l.dropWhile isSpaceChar).reverse).getLast? = some c := by
    conv_lhs =>
      rw [← List.takeWhile_append_dropWhile isSpaceChar
        ((l.dropWhile isSpaceChar).reverse)]
    rw [List.getLast?_append, h, Option.or_some]
  rw [List.getLast?_reverse] at h1
  exact dropWhile_head_not l c h1

theorem stripChars_getLast {l : List Char} {c : Char}
    (h : (stripChars l).getLast? = some c) : isSpaceChar c = false := by
  unfold stripChars at h
  rw [List.getLast?_reverse] at h
  exact dropWhile_head_not _ c h

theorem preprocess_head {t : List Char} {c : Char}
    (h : (preprocess_text t).head? = some c) : isSpaceChar c = false := by
  unfold preprocess_text at h
  by_cases h0 : t = []
  · rw [if_pos h0] at h
    simp at h
  · rw [if_neg h0] at h
    exact stripChars_head h

theorem preprocess_getLast {t : List Char} {c : Char}
    (h : (preprocess_text t).getLast? = some c) : isSpaceChar c = false := by
  unfold preprocess_text at h
  by_cases h0 : t = []
  · rw [if_pos h0] at h
    simp at h
  · rw [if_neg h0] at h
    exact stripChars_getLast h

theorem allowed_space_eq {c : Char} (ha : allowedOut c = true)
    (hs : isSpaceChar c = true) : c = ' ' := by
  simp only [allowedOut, Bool.or_eq_true, decide_eq_true_eq] at ha
  rcases ha with ((hw | h) | h) | h
  · rw [not_word_of_space hs] at hw
    exact absurd hw (by decide)
  · exact h
  · subst h; exact absurd hs (by decide)
  · subst h; exact absurd hs (by decide)

/-- On a string that is already character-clean and stripped, one pass of the
normalizer only collapses whitespace runs. -/
theorem preprocess_of_clean {y : List Char}
    (hall : ∀ c ∈ y, allowedOut c = true)
    (hh : ∀ c, y.head? = some c → isSpaceChar c = false)
    (hl : ∀ c, y.getLast? = some c → isSpaceChar c = false) :
    preprocess_text y = collapseWs y := by
  by_cases h0 : y = []
  · subst h0; rfl
  · unfold preprocess_text
    rw [if_neg h0, sub1_eq_self hall]
    have hallc : ∀ c ∈ collapseWs y, allowedOut c = true := by
      intro c hc
      rcases mem_collapseWsAux false y hc with h1 | ⟨h1, _⟩
      · subst h1; decide
      · exact hall c h1
    rw [sub3_eq_self hallc]
    apply stripChars_eq_self
    · intro c hc
      cases y with
      | nil => exact absurd rfl h0
      | cons a as =>
        have ha : isSpaceChar a = false := hh a List.head?_cons
        rw [collapseWs, collapseWsAux_false_head ha] at hc
        injection hc with hc
        subst hc
        exact ha
    · intro c hc
      rcases hy : y.getLast? with _ | d
      · rw [List.getLast?_eq_none_iff] at hy
        exact absurd hy h0
      · have hd : isSpaceChar d = false := hl d hy
        rw [collapseWs, collapseWsAux_getLast hd y false hy] at hc
        injection hc with hc
        subst hc
        exact hd

/-- Applying the normalizer twice reaches a fixed point: a third application
changes nothing. -/
theorem preprocess_triple (t : List Char) :
    preprocess_text (preprocess_text (preprocess_text t))
      = preprocess_text (preprocess_text t) := by
  have hall : ∀ c ∈ preprocess_text t, allowedOut c = true :=
    fun c hc => mem_preprocess_allowed hc
  have h1 : preprocess_text (preprocess_text t) = collapseWs (preprocess_text t) :=
    preprocess_of_clean hall (fun c hc => preprocess_head hc)
      (fun c hc => preprocess_getLast hc)
  rw [h1]
  have hallz : ∀ c ∈ collapseWs (preprocess_text t), allowedOut c = true := by
    intro c hc
    rcases mem_collapseWsAux false (preprocess_text t) hc with h2 | ⟨h2, _⟩
    · subst h2; decide
    · exact hall c h2
  have hhz : ∀ c, (collapseWs (preprocess_text t)).head? = some c →
      isSpaceChar c = false := by
    intro c hc
    rcases hy : preprocess_text t with _ | ⟨a, as⟩
    · rw [hy] at hc
      simp [collapseWs, collapseWsAux] at hc
    · have ha : isSpaceChar a = false := preprocess_head (by rw [hy]; rfl)
      rw [hy, collapseWs, collapseWsAux_false_head ha] at hc
      injection hc with hc
      subst hc
      exact ha
  have hlz : ∀ c, (collapseWs (preprocess_text t)).getLast? = some c →
      isSpaceChar c = false := by
    intro c hc
    rcases hy : (preprocess_text t).getLast? with _ | d
    · rw [List.getLast?_eq_none_iff] at hy
      rw [hy] at hc
      simp [collapseWs, collapseWsAux] at hc
    · have hd : isSpaceChar d = false := preprocess_getLast hy
      rw [collapseWs, collapseWsAux_getLast hd _ false hy] at hc
      injection hc with hc
      subst hc
      exact hd
  rw [preprocess_of_clean hallz hhz hlz]
  have hsp : ∀ c ∈ collapseWs (preprocess_text t), isSpaceChar c = true → c = ' ' :=
    fun c hc hs => allowed_space_eq (hallz c hc) hs
  exact (collapseWsAux_id (collapseWs (preprocess_text t))
    (noTwoSpaces_collapseWsAux (preprocess_text t) false) hsp).1

/-! ### Claim theorems -/

/-- C1 counterexample: the normalizer is not idempotent.  On `"a!!b"` the
punctuation substitution (which runs after whitespace collapsing) leaves the
double space `"a  b"`, and a second pass collapses it to `"a b"`. -/
theorem claim_C1_counterexample :
    preprocess_text (preprocess_text ("a!!b".toList))
      ≠ preprocess_text ("a!!b".toList) := by decide

/-- C1 (amended): the normalizer is not idempotent in a single pass, but it
stabilizes after two passes: for every input `x`,
`preprocess_text (preprocess_text (preprocess_text x)) =
preprocess_text (preprocess_text x)`. -/
theorem claim_C1 (x : List Char) :
    preprocess_text (preprocess_text (preprocess_text x))
      = preprocess_text (preprocess_text x) :=
  preprocess_triple x

/-- C2: for every aggregate call with non-empty inputs, every matched skill
in the returned bundle is one of the returned job skills
(`matched_skills ⊆ job_skills`). -/
theorem claim_C2 (sim : List Char → List Char → Option ℚ)
    (resume_text job_description_text : List Char) (w1 w2 : ℚ)
    (hr : resume_text ≠ []) (hj : job_description_text ≠ []) :
    ∀ s ∈ (calculate_final_resume_score sim resume_text job_description_text
        w1 w2).matchedSkills,
      s ∈ (calculate_final_resume_score sim resume_text job_description_text
        w1 w2).jobSkills := by
  intro s hs
  rw [calculate_final_unfold sim _ _ w1 w2 hr hj] at hs ⊢
  show s ∈ extract_skills job_description_text
  have h1 := score_skills_matched_subset s hs
  rw [List.mem_map] at h1
  obtain ⟨x, hx, hxs⟩ := h1
  rw [← hxs, extract_skills_lower hx]
  exact hx

/-- Witness for C2 at a concrete aggregate call. -/
theorem claim_C2_witness :
    "python".toList ∈ (calculate_final_resume_score (fun _ _ => some (1 / 2))
      ("python".toList) ("python".toList) 1 1).jobSkills :=
  claim_C2 (fun _ _ => some (1 / 2)) ("python".toList) ("python".toList) 1 1
    (by decide) (by decide) ("python".toList) (by decide)

/-- C3: on non-empty inputs the final score is exactly
`round2 (skill_score * skill_weight + text_score * text_weight)`, for
arbitrary caller-supplied weights — the weights are applied literally, with
no validation or normalization to sum to 1. -/
theorem claim_C3 (sim : List Char → List Char → Option ℚ)
    (resume_text job_description_text : List Char) (w1 w2 : ℚ)
    (hr : resume_text ≠ []) (hj : job_description_text ≠ []) :
    (calculate_final_resume_score sim resume_text job_description_text
        w1 w2).finalResumeScore
      = round2 ((calculate_final_resume_score sim resume_text job_description_text
          w1 w2).skillMatchScore * w1
        + (calculate_final_resume_score sim resume_text job_description_text
          w1 w2).textSimilarityScore * w2) := by
  rw [calculate_final_unfold sim _ _ w1 w2 hr hj]

/-- Witness for C3 at concrete inputs, with weights summing to 2 (applied
literally). -/
theorem claim_C3_witness :
    (calculate_final_resume_score (fun _ _ => some 1) ("a".toList) ("b".toList)
        (3 / 2) (1 / 2)).finalResumeScore
      = round2 ((calculate_final_resume_score (fun _ _ => some 1) ("a".toList)
          ("b".toList) (3 / 2) (1 / 2)).skillMatchScore * (3 / 2)
        + (calculate_final_resume_score (fun _ _ => some 1) ("a".toList)
          ("b".toList) (3 / 2) (1 / 2)).textSimilarityScore * (1 / 2)) :=
  claim_C3 (fun _ _ => some 1) ("a".toList) ("b".toList) (3 / 2) (1 / 2)
    (by decide) (by decide)

/-- C4: when the similarity oracle returns cosine values in `[0, 1]` (the
guarantee of TF-IDF cosine similarity) and the weights are each in `[0, 1]`
and sum to exactly 1, the skill score, similarity score and final score of
every aggregate call lie in `[0, 100]` and are fixed points of rounding to 2
decimal places. -/
theorem claim_C4 (sim : List Char → List Char → Option ℚ)
    (resume_text job_description_text : List Char) (w1 w2 : ℚ)
    (hsim : ∀ a b q, sim a b = some q → 0 ≤ q ∧ q ≤ 1)
    (hw1 : 0 ≤ w1) (hw1' : w1 ≤ 1) (hw2 : 0 ≤ w2) (hw2' : w2 ≤ 1)
    (hsum : w1 + w2 = 1) :
    (0 ≤ (calculate_final_resume_score sim resume_text job_description_text
        w1 w2).skillMatchScore
      ∧ (calculate_final_resume_score sim resume_text job_description_text
        w1 w2).skillMatchScore ≤ 100
      ∧ round2 (calculate_final_resume_score sim resume_text job_description_text
          w1 w2).skillMatchScore
        = (calculate_final_resume_score sim resume_text job_description_text
          w1 w2).skillMatchScore)
    ∧ (0 ≤ (calculate_final_resume_score sim resume_text job_description_text
        w1 w2).textSimilarityScore
      ∧ (calculate_final_resume_score sim resume_text job_description_text
        w1 w2).textSimilarityScore ≤ 100
      ∧ round2 (calculate_final_resume_score sim resume_text job_description_text
          w1 w2).textSimilarityScore
        = (calculate_final_resume_score sim resume_text job_description_text
          w1 w2).textSimilarityScore)
    ∧ (0 ≤ (calculate_final_resume_score sim resume_text job_description_text
        w1 w2).finalResumeScore
      ∧ (calculate_final_resume_score sim resume_text job_description_text
        w1 w2).finalResumeScore ≤ 100
      ∧ round2 (calculate_final_resume_score sim resume_text job_description_text
          w1 w2).finalResumeScore
        = (calculate_final_resume_score sim resume_text job_description_text
          w1 w2).finalResumeScore) := by
  by_cases hempty : resume_text = [] ∨ job_description_text = []
  · have hz : calculate_final_resume_score sim resume_text job_description_text
        w1 w2 = ⟨0, 0, 0, [], [], []⟩ := by
      simp only [calculate_final_resume_score, if_pos hempty]
    rw [hz]
    refine ⟨⟨le_refl 0, by norm_num, by decide⟩,
      ⟨le_refl 0, by norm_num, by decide⟩,
      ⟨le_refl 0, by norm_num, by decide⟩⟩
  · push_neg at hempty
    rw [calculate_final_unfold sim _ _ w1 w2 hempty.1 hempty.2]
    obtain ⟨hs0, hs1, hs2⟩ :=
      score_skills_bounds resume_text (extract_skills job_description_text)
    obtain ⟨ht0, ht1, ht2⟩ :=
      score_similarity_bounds sim resume_text job_description_text hsim
    refine ⟨⟨hs0, hs1, hs2⟩, ⟨ht0, ht1, ht2⟩, ?_, ?_, round2_round2 _⟩
    · apply round2_nonneg
      have := mul_nonneg hs0 hw1
      have := mul_nonneg ht0 hw2
      linarith
    · have hb : (score_resume_by_skills resume_text
          (extract_skills job_description_text)).1 * w1
          + score_resume_by_text_similarity sim resume_text job_description_text * w2
          ≤ ((100 : ℤ) : ℚ) := by
        push_cast
        nlinarith
      have := round2_le hb
      push_cast at this
      exact this

/-- Witness for C4 at a concrete aggregate call with weights 0.7/0.3 and a
similarity oracle returning 1/2. -/
theorem claim_C4_witness :
    (0 ≤ (calculate_final_resume_score (fun _ _ => some (1 / 2)) ("python".toList)
        ("python".toList) (7 / 10) (3 / 10)).skillMatchScore
      ∧ (calculate_final_resume_score (fun _ _ => some (1 / 2)) ("python".toList)
        ("python".toList) (7 / 10) (3 / 10)).skillMatchScore ≤ 100
      ∧ round2 (calculate_final_resume_score (fun _ _ => some (1 / 2)) ("python".toList)
          ("python".toList) (7 / 10) (3 / 10)).skillMatchScore
        = (calculate_final_resume_score (fun _ _ => some (1 / 2)) ("python".toList)
          ("python".toList) (7 / 10) (3 / 10)).skillMatchScore)
    ∧ (0 ≤ (calculate_final_resume_score (fun _ _ => some (1 / 2)) ("python".toList)
        ("python".toList) (7 / 10) (3 / 10)).textSimilarityScore
      ∧ (calculate_final_resume_score (fun _ _ => some (1 / 2)) ("python".toList)
        ("python".toList) (7 / 10) (3 / 10)).textSimilarityScore ≤ 100
      ∧ round2 (calculate_final_resume_score (fun _ _ => some (1 / 2)) ("python".toList)
          ("python".toList) (7 / 10) (3 / 10)).textSimilarityScore
        = (calculate_final_resume_score (fun _ _ => some (1 / 2)) ("python".toList)
          ("python".toList) (7 / 10) (3 / 10)).textSimilarityScore)
    ∧ (0 ≤ (calculate_final_resume_score (fun _ _ => some (1 / 2)) ("python".toList)
        ("python".toList) (7 / 10) (3 / 10)).finalResumeScore
      ∧ (calculate_final_resume_score (fun _ _ => some (1 / 2)) ("python".toList)
        ("python".toList) (7 / 10) (3 / 10)).finalResumeScore ≤ 100
      ∧ round2 (calculate_final_resume_score (fun _ _ => some (1 / 2)) ("python".toList)
          ("python".toList) (7 / 10) (3 / 10)).finalResumeScore
        = (calculate_final_resume_score (fun _ _ => some (1 / 2)) ("python".toList)
          ("python".toList) (7 / 10) (3 / 10)).finalResumeScore) :=
  claim_C4 (fun _ _ => some (1 / 2)) ("python".toList) ("python".toList)
    (7 / 10) (3 / 10)
    (fun _ _ q h => by injection h with h; subst h; exact ⟨by norm_num, by norm_num⟩)
    (by norm_num) (by norm_num) (by norm_num) (by norm_num) (by norm_num)

/-- C5: the similarity scorer returns 0 whenever either input is empty, and
returns 0 (instead of propagating a failure) whenever the vectorization
oracle fails; being a total function of its inputs, it never raises. -/
theorem claim_C5 (sim : List Char → List Char → Option ℚ)
    (resume_text job_description_text : List Char) :
    ((resume_text = [] ∨ job_description_text = []) →
      score_resume_by_text_similarity sim resume_text job_description_text = 0)
    ∧ (sim (preprocess_text resume_text) (preprocess_text job_description_text)
        = none →
      score_resume_by_text_similarity sim resume_text job_description_text = 0) :=
  ⟨score_similarity_empty sim resume_text job_description_text,
    score_similarity_failure sim resume_text job_description_text⟩

/-- Witness for C5: empty input and failing vectorization both yield 0. -/
theorem claim_C5_witness :
    score_resume_by_text_similarity (fun _ _ => none) [] ("x".toList) = 0
    ∧ score_resume_by_text_similarity (fun _ _ => none) ("a".toList) ("b".toList) = 0 :=
  ⟨(claim_C5 (fun _ _ => none) [] ("x".toList)).1 (Or.inl rfl),
    (claim_C5 (fun _ _ => none) ("a".toList) ("b".toList)).2 rfl⟩

/-- C6: if either input text is empty, the aggregator returns the all-zero
bundle with empty skill sets, performing no partial computation. -/
theorem claim_C6 (sim : List Char → List Char → Option ℚ)
    (resume_text job_description_text : List Char) (w1 w2 : ℚ)
    (h : resume_text = [] ∨ job_description_text = []) :
    calculate_final_resume_score sim resume_text job_description_text w1 w2
      = ⟨0, 0, 0, [], [], []⟩ := by
  simp only [calculate_final_resume_score, if_pos h]

/-- Witness for C6 with an empty resume text. -/
theorem claim_C6_witness :
    calculate_final_resume_score (fun _ _ => none) [] ("x".toList) 1 1
      = ⟨0, 0, 0, [], [], []⟩ :=
  claim_C6 (fun _ _ => none) [] ("x".toList) 1 1 (Or.inl rfl)

/-- C7: the skill scorer returns `(0, ∅)` on an empty required-skill list;
otherwise its percentage equals `round2 (100 * |matched| / |unique lowercased
required skills|)`; and on the spec's concrete example it returns
`(50, {"python"})`. -/
theorem claim_C7 :
    (∀ resume_text : List Char, score_resume_by_skills resume_text [] = (0, []))
    ∧ (∀ (resume_text : List Char) (job_skills : List (List Char)),
        job_skills ≠ [] →
        (score_resume_by_skills resume_text job_skills).1
          = round2 (100 * ((score_resume_by_skills resume_text job_skills).2.length : ℚ)
            / (((job_skills.map lowerStr).dedup.length : ℚ))))
    ∧ score_resume_by_skills ("I use Python and SQL daily".toList)
        (["python", "java"].map String.toList) = (50, ["python".toList]) := by
  refine ⟨score_skills_empty, fun r js h => score_skills_formula h, by decide⟩

/-- Witness for C7's non-empty-list formula at a concrete call. -/
theorem claim_C7_witness :
    score_resume_by_skills ("python".toList) [] = (0, [])
    ∧ (score_resume_by_skills ("python".toList) ["python".toList]).1
        = round2 (100 * ((score_resume_by_skills ("python".toList)
            ["python".toList]).2.length : ℚ)
          / (((["python".toList].map lowerStr).dedup.length : ℚ))) :=
  ⟨claim_C7.1 ("python".toList),
    claim_C7.2.1 ("python".toList) ["python".toList] (by decide)⟩

/-- C8: skill matching is word-boundary anchored: a dictionary term is
reported by extraction only when it occurs word-bounded in the (lowercased)
normalized text; in particular `extract_skills "javascriptx"` does not
contain `"javascript"`. -/
theorem claim_C8 :
    (∀ (text skill : List Char), skill ∈ ALL_SKILLS → skill ∈ extract_skills text →
      searchWB skill (lowerStr (preprocess_text text)) = true)
    ∧ "javascript".toList ∉ extract_skills ("javascriptx".toList) := by
  refine ⟨fun text skill _ h => extract_skills_wordBounded h, by decide⟩

/-- Witness for C8: `"python"` is extracted from `"python"` and indeed occurs
word-bounded there. -/
theorem claim_C8_witness :
    searchWB ("python".toList) (lowerStr (preprocess_text ("python".toList))) = true :=
  claim_C8.1 ("python".toList) ("python".toList) (by decide) (by decide)

/-- C9: every matched skill returned by the skill scorer is the lowercased
form of a required skill (`matched ⊆ lower '' required`); a caller supplying
`["Python"]` receives `{"python"}`. -/
theorem claim_C9 :
    (∀ (resume_text : List Char) (required : List (List Char)),
      ∀ s ∈ (score_resume_by_skills resume_text required).2,
        s ∈ required.map lowerStr)
    ∧ score_resume_by_skills ("I use Python".toList) [("Python".toList)]
        = (100, ["python".toList]) := by
  refine ⟨fun r req => score_skills_matched_subset, by decide⟩

/-- Witness for C9 at a mixed-case required skill. -/
theorem claim_C9_witness :
    "python".toList ∈ ([("Python".toList)].map lowerStr) :=
  claim_C9.1 ("I use Python".toList) [("Python".toList)] ("python".toList) (by decide)

/-- C10: the dictionary term `"ci/cd"` is unextractable: normalization
replaces `/` by a space, so for every input text the extraction never
returns `"ci/cd"`. -/
theorem claim_C10 (text : List Char) :
    decide ("ci/cd".toList ∈ extract_skills text) = false := by
  apply decide_eq_false
  intro hmem
  have h1 := extract_skills_wordBounded hmem
  have h2 := searchWB_subset h1 '/' (by decide)
  exact slash_not_mem_lower_preprocess h2
